import Mathlib

/-!
Verification of `src/js/extensions/scrollFollow.sectionManager.js` (tui.editor
scroll-follow SectionManager).

The JavaScript module is embedded shallowly:

* a CodeMirror document is a `List LineInfo`, where `LineInfo` carries the raw
  line text (`cm.getLine(i)`) together with the per-line parse state that the
  code reads from `cm.getStateAfter(i).base` (`header`, `quote`, `list`,
  `taskList`);
* the preview's top-level elements (`$previewContent.contents()` filtered to
  element nodes) are a `List String` of upper-case tag names;
* the jQuery wrapper produced by `$(childs).wrapAll($sectionDiv).parent()` is
  modelled as the pair `(index, childs)`: the container's positional class
  `content-id-<index>` plus the wrapped group of elements;
* the JS `TypeError` thrown when `_updateCurrentSectionEnd` dereferences a
  `null` `_currentSection` is modelled by `Option`: `makeSectionList` returns
  `none` exactly when the original code throws.

`makeSectionList` is modelled for a freshly constructed manager
(`_currentSection === null`, as set by the constructor); on such a manager the
current section is always the last element of `_sectionList`, so the mutable
aliasing in the source collapses to updating the last list element.
-/

/-- Per-line input consumed by the section manager: the raw text of the line
and the fields of `cm.getStateAfter(i).base` that the classifier reads. -/
structure LineInfo where
  text : String
  header : Bool
  quote : Bool
  list : Bool
  taskList : Bool
deriving DecidableEq

/-- Characters treated as whitespace by the JavaScript regex class `\s` and by
`String.prototype.trim`, restricted to the code points that can occur in a
single markdown source line (the full Unicode `Zs` category is not spelled
out; the section manager only ever meets ASCII whitespace plus NBSP/BOM). -/
def jsSpace (c : Char) : Bool :=
  c == ' ' || c == '\t' || c == '\n' || c == '\r' ||
  c == '\x0B' || c == '\x0C' || c == ' ' || c == '﻿'

/-- The setext underline test `setextHeaderRx = /^ *(?:\={1,}|-{1,})\s*$/`:
any number of leading space characters (U+0020 only), then one or more `=` or
one or more `-`, then trailing `\s*`, and nothing else. -/
def setextMatch (s : String) : Bool :=
  let cs := s.toList.dropWhile (fun c => c == ' ')
  match cs with
  | [] => false
  | c :: _ =>
      if c == '=' then (cs.dropWhile (fun c => c == '=')).all jsSpace
      else if c == '-' then (cs.dropWhile (fun c => c == '-')).all jsSpace
      else false

/-- A line is blank when its `trim()` is empty, i.e. every character is
whitespace; `_eachLineState` accumulates trimmed text into `trimCapture` and
keeps skipping while that capture is still empty. -/
def lineBlank (li : LineInfo) : Bool := li.text.toList.all jsSpace

/-- The `else if` branch of the classifier:
`this.cm.getLine(i+1) && this.cm.getLine(i+1).match(setextHeaderRx)`.
`getLine` of an out-of-range index is `undefined` and an empty line is falsy,
so the branch requires the next line to exist, be non-empty, and match. -/
def setextNext (doc : List LineInfo) (i : Nat) : Bool :=
  match doc.get? (i+1) with
  | none => false
  | some nxt => (nxt.text != "") && setextMatch nxt.text

/-- The per-line boundary classification of `_eachLineState`: the atx branch
`getLine(i) && state.base.header && !quote && !list && !taskList`, otherwise
the setext branch on the following line. -/
def isSectionLine (doc : List LineInfo) (i : Nat) : Bool :=
  match doc.get? i with
  | none => false
  | some li =>
      if (li.text != "") && li.header && !li.quote && !li.list && !li.taskList then true
      else setextNext doc i

/-- The scan loop of `_eachLineState`.  `fuel` is the number of loop
iterations still to run (the JS `for` loop runs exactly `lineCount` times, so
`fuel` starts at `doc.length` and stands for `lineCount - i`); `trimming` is
`isTrimming`.  The returned list collects the `(isSection, lineNumber)`
arguments passed to the iteratee, in order. -/
def linesLoop (doc : List LineInfo) : Nat → Nat → Bool → List (Bool × Nat)
  | 0, _, _ => []
  | fuel+1, i, trimming =>
      match doc.get? i with
      | none => []
      | some li =>
          if trimming && lineBlank li then linesLoop doc fuel (i+1) true
          else (isSectionLine doc i, i) :: linesLoop doc fuel (i+1) false

/-- `_eachLineState`: the stream of `(isSection, lineNumber)` pairs handed to
the iteratee. -/
def eachLineState (doc : List LineInfo) : List (Bool × Nat) :=
  linesLoop doc doc.length 0 true

/-- A section record `{start, end, $previewSectionEl}` as built by
`_makeSectionData(start, end)`. -/
structure Section where
  start : Nat
  «end» : Nat
  previewSectionEl : Option (Nat × List String)
deriving DecidableEq

/-- `_updateCurrentSectionEnd(end)` on a fresh manager: the current section is
the most recently pushed one, i.e. the last element of the list. -/
def updateLastEnd : List Section → Nat → List Section
  | [], _ => []
  | [s], e => [{ s with «end» := e }]
  | s :: rest, e => s :: updateLastEnd rest e

/-- One iteratee step of `makeSectionList`: on `lineNumber === 0 || isSection`
push a fresh `{start: lineNumber, end: lineNumber}` section, otherwise update
the current section's end.  A `none` accumulator records that the original
code has already thrown (`_updateCurrentSectionEnd` on a `null`
`_currentSection`), which happens exactly when an update is requested while no
section has been pushed yet. -/
def buildStep (acc : Option (List Section)) (x : Bool × Nat) : Option (List Section) :=
  match acc with
  | none => none
  | some secs =>
      if x.2 == 0 || x.1 then some (secs ++ [⟨x.2, x.2, none⟩])
      else
        match secs with
        | [] => none
        | _ :: _ => some (updateLastEnd secs x.2)

/-- `makeSectionList()` on a freshly constructed manager: replace the section
list by folding the classifier stream through the iteratee.  `none` models the
`TypeError` the JS code throws on documents whose first non-blank line is
neither line 0 nor a boundary. -/
def makeSectionList (doc : List LineInfo) : Option (List Section) :=
  (eachLineState doc).foldl buildStep (some [])

/-- Index of the first line whose trimmed text is non-empty (the line at which
`isTrimming` switches off), if any. -/
def firstNonBlank : List LineInfo → Option Nat
  | [] => none
  | li :: rest => if lineBlank li then (firstNonBlank rest).map (· + 1) else some 0

/-- The scan inside `sectionByLine`: find the first section whose
`end >= line`. -/
def scanFind : List Section → Nat → Option Section
  | [], _ => none
  | s :: rest, line => if line ≤ s.«end» then some s else scanFind rest line

/-- `sectionByLine(line)`: linear scan for the first section with
`line <= end`; when the loop falls off the end (`sectionIndex ===
sectionLength`) it backs up to the last section.  On an empty list the JS code
reads `sectionList[-1]`, i.e. `undefined`, modelled as `none`. -/
def sectionByLine (l : List Section) (line : Nat) : Option Section :=
  match scanFind l line with
  | some s => some s
  | none => l.getLast?

/-- Does `pat` occur at the head of `cs`? (helper for the unanchored regex
match below). -/
def charsStart : List Char → List Char → Bool
  | [], _ => true
  | _ :: _, [] => false
  | p :: ps, c :: rest => p == c && charsStart ps rest

/-- Does `pat` occur contiguously anywhere inside `cs`? -/
def charsInside : List Char → List Char → Bool
  | pat, [] => charsStart pat []
  | pat, c :: rest => charsStart pat (c :: rest) || charsInside pat rest

/-- The heading test of `_getPreviewSections`:
`el.tagName.match(/H1|H2|H3|H4|H5|H6/)`.  The regex is unanchored, so it is a
substring test, not an exact tag comparison. -/
def isHeadingTagMatch (t : String) : Bool :=
  ["H1", "H2", "H3", "H4", "H5", "H6"].any (fun p => charsInside p.toList t.toList)

/-- `sections[lastSection]` — `lastSection` always indexes the most recently
pushed group, i.e. the last element. -/
def lastGroup : List (List String) → List String
  | [] => []
  | [g] => g
  | _ :: gs => lastGroup gs

/-- `sections[lastSection].push(el)` — append to the last group. -/
def pushLast : List (List String) → String → List (List String)
  | [], _ => []
  | [g], el => [g ++ [el]]
  | g :: gs, el => g :: pushLast gs el

/-- One loop iteration of `_getPreviewSections`: if the element's tag name
matches the heading regex and the current (last) group is non-empty
(`sections[lastSection].length`), open a fresh group; then push the element
into the current group. -/
def previewStep (sections : List (List String)) (el : String) : List (List String) :=
  if isHeadingTagMatch el && !(lastGroup sections).isEmpty
  then pushLast (sections ++ [[]]) el
  else pushLast sections el

/-- `_getPreviewSections()`: start from `sections = [[]]` and run the loop
over the preview's top-level elements in order. -/
def getPreviewSections (elems : List String) : List (List String) :=
  elems.foldl previewStep [[]]

/-- Modelled from the spec: the grouping algorithm exactly as worded in
section 4.3, parameterised by the heading test — "maintaining a current group
and a list of groups, starting with one empty group; for each element
satisfying the heading test, if the current group already contains at least
one element, close it and open a new group before appending the heading
element to the new group; otherwise append in place; all other elements simply
append to the current group". -/
def specStep (headingTest : String → Bool)
    (acc : List (List String) × List String) (el : String) :
    List (List String) × List String :=
  if headingTest el && !acc.2.isEmpty then (acc.1 ++ [acc.2], [el])
  else (acc.1, acc.2 ++ [el])

/-- Modelled from the spec (continued): run the worded grouping over the
elements, starting with no closed groups and one empty current group, and
close the final current group at the end. -/
def specGroups (headingTest : String → Bool) (elems : List String) : List (List String) :=
  let acc := elems.foldl (specStep headingTest) ([], [])
  acc.1 ++ [acc.2]

/-- Modelled from the spec: "tag name is one of the six heading levels
(H1–H6)" — an exact membership test, the reading the claims give to the
grouping rule. -/
def specHeadingTag (t : String) : Bool :=
  ["H1", "H2", "H3", "H4", "H5", "H6"].contains t

/-- Modelled from the spec: "one or more `=` or `-` characters, optionally
surrounded by leading/trailing whitespace, and nothing else" — the setext
underline pattern as the claim words it, with arbitrary whitespace (not just
U+0020) allowed on both sides. -/
def specSetextUnderline (s : String) : Bool :=
  let cs := s.toList.dropWhile jsSpace
  match cs with
  | [] => false
  | c :: _ =>
      if c == '=' then (cs.dropWhile (fun c => c == '=')).all jsSpace
      else if c == '-' then (cs.dropWhile (fun c => c == '-')).all jsSpace
      else false

/-- The manager state relevant to `sectionMatch`: `_sectionList`, which is
`null` (`none`) until `makeSectionList` has run. -/
structure SectionManager where
  sectionList : Option (List Section)
deriving DecidableEq

/-- `_matchPreviewSectionsWithSectionlist(sections)`: walk the preview groups
by index; whenever `_sectionList[index]` exists, replace that section's
`$previewSectionEl` by the freshly wrapped container `(index, childs)`.
Sections beyond the group count are left untouched; groups beyond the section
count are dropped. -/
def matchPS : List Section → List (List String) → Nat → List Section
  | secs, [], _ => secs
  | [], _, _ => []
  | s :: rest, g :: gs, i =>
      { s with previewSectionEl := some (i, g) } :: matchPS rest gs (i+1)

/-- `sectionMatch()`: no-op when `_sectionList` is `null`; otherwise group the
preview's top-level elements and match them index-wise with the section
list. -/
def sectionMatch (m : SectionManager) (previewEls : List String) : SectionManager :=
  match m.sectionList with
  | none => m
  | some l => { m with sectionList := some (matchPS l (getPreviewSections previewEls) 0) }

/-! Concrete documents used by the claim instances. -/

/-- A blank first line followed by a plain (non-heading) line. -/
def blankThenPlain : List LineInfo :=
  [⟨"", false, false, false, false⟩, ⟨"some plain text", false, false, false, false⟩]

/-- A second document of the same shape, with different text. -/
def blankThenProse : List LineInfo :=
  [⟨"", false, false, false, false⟩, ⟨"prose without heading", false, false, false, false⟩]

/-- The spec's end-to-end example document:
`["", "# Title", "body1", "body2", "## Sub", "body3"]`, with the heading-state
oracle marking lines 1 and 4 as headings outside quote/list/task-list
context. -/
def exampleDoc : List LineInfo :=
  [⟨"", false, false, false, false⟩,
   ⟨"# Title", true, false, false, false⟩,
   ⟨"body1", false, false, false, false⟩,
   ⟨"body2", false, false, false, false⟩,
   ⟨"## Sub", true, false, false, false⟩,
   ⟨"body3", false, false, false, false⟩]

/-- Two plain lines followed by a tab-then-equals line: the third line matches
the spec's "optionally surrounded by whitespace" underline pattern but not the
code's space-only regex. -/
def tabUnderlineDoc : List LineInfo :=
  [⟨"alpha", false, false, false, false⟩,
   ⟨"beta", false, false, false, false⟩,
   ⟨"\t=", false, false, false, false⟩]

/-- A plain line, then a heading inside a list context (`- # h`, which the
oracle marks both `header` and `list`), then a `---` underline line. -/
def listHeadingDoc : List LineInfo :=
  [⟨"intro", false, false, false, false⟩,
   ⟨"- # h", true, false, true, false⟩,
   ⟨"---", false, false, false, false⟩]

/-- A title line followed by its `===` underline. -/
def setextTitleDoc : List LineInfo :=
  [⟨"Title", false, false, false, false⟩,
   ⟨"===", false, false, false, false⟩]

/-! Claim instances settled by evaluation. -/

/-- Claim C1 (code bug): on a document whose first non-blank line is not line
0 and not a boundary — here `["", "some plain text"]` — `makeSectionList` does
not produce a first section starting at the first non-blank line 1; it
dereferences the `null` `_currentSection` and throws (modelled as `none`),
contradicting "section 0 always starts at the first non-blank line even if
that line is not itself a heading". -/
theorem makeSectionList_crashes_on_blank_then_plain :
    firstNonBlank blankThenPlain = some 1 ∧ makeSectionList blankThenPlain = none := by
  decide

/-- Claim C2 (counterexample): on the spec's example document the code does
not return the three claimed sections `{1,1}, {2,3}, {4,5}`. -/
theorem makeSectionList_exampleDoc_not_three_sections :
    makeSectionList exampleDoc ≠
      some [⟨1, 1, none⟩, ⟨2, 3, none⟩, ⟨4, 5, none⟩] := by
  decide

/-- Claim C2 (amended): on the example document `makeSectionList` produces
exactly the two sections `{start:1, end:3}` and `{start:4, end:5}`: the blank
line 0 is absorbed, the `# Title` boundary opens a section that also takes the
two body lines, and the `## Sub` boundary opens the final section. -/
theorem makeSectionList_exampleDoc_two_sections :
    makeSectionList exampleDoc = some [⟨1, 3, none⟩, ⟨4, 5, none⟩] := by
  decide

/-- Claim C3 (counterexample): the claimed invariants do not hold for every
document — on `["", "prose without heading"]` no section list is produced at
all (the build throws), so nothing covers the interval from the first
non-blank line 1 to the last line. -/
theorem makeSectionList_no_list_on_blank_then_prose :
    firstNonBlank blankThenProse = some 1 ∧ makeSectionList blankThenProse = none := by
  decide

/-- Claim C5 (counterexample): line 2 of `["alpha", "beta", "\t="]` consists
of `=` surrounded by whitespace only — it matches the claim's underline
pattern — yet the code's regex admits only spaces before the marks, so line 1
is not flagged as a boundary and no section starts at it: the whole document
is the single section `{0, 2}`. -/
theorem setext_tab_underline_not_boundary :
    specSetextUnderline "\t=" = true ∧
    setextMatch "\t=" = false ∧
    isSectionLine tabUnderlineDoc 1 = false ∧
    makeSectionList tabUnderlineDoc = some [⟨0, 2, none⟩] := by
  decide

/-- Claim C6 (counterexample): line 1 of `["intro", "- # h", "---"]` is marked
as a heading inside a list context, so by the claim it must not open a new
section — yet the next line is a setext underline, the `else if` branch fires,
and a section starting at line 1 is created. -/
theorem atx_in_list_with_underline_opens_section :
    (listHeadingDoc.get? 1).map (fun li => (li.header, li.list)) = some (true, true) ∧
    isSectionLine listHeadingDoc 1 = true ∧
    makeSectionList listHeadingDoc = some [⟨0, 0, none⟩, ⟨1, 2, none⟩] := by
  decide

/-- Claim C7 (counterexample): the code's heading test is an unanchored regex,
i.e. a substring test; on the element sequence `[P, XH1]` the code opens a new
group at `XH1` although its tag name is not one of the six heading tags, so
the grouping differs from the claimed one. -/
theorem preview_grouping_substring_tag_mismatch :
    getPreviewSections ["P", "XH1"] = [["P"], ["XH1"]] ∧
    specGroups specHeadingTag ["P", "XH1"] = [["P", "XH1"]] ∧
    getPreviewSections ["P", "XH1"] ≠ specGroups specHeadingTag ["P", "XH1"] := by
  decide

/-! Helper notions and lemmas about the classifier stream. -/

/-- Consecutive line indices `s, s+1, …, s+len-1`. -/
def lineSpan : Nat → Nat → List Nat
  | _, 0 => []
  | s, len+1 => s :: lineSpan (s+1) len

theorem lineSpan_snoc : ∀ (len s : Nat), lineSpan s (len+1) = lineSpan s len ++ [s + len]
  | 0, s => by simp [lineSpan]
  | len+1, s => by
      rw [lineSpan, lineSpan_snoc len (s+1), lineSpan]
      simp [Nat.add_assoc, Nat.add_comm 1 len]

theorem mem_lineSpan : ∀ (len s m : Nat), m ∈ lineSpan s len ↔ s ≤ m ∧ m < s + len
  | 0, s, m => by simp [lineSpan]; try omega
  | len+1, s, m => by
      rw [lineSpan]
      simp [mem_lineSpan len (s+1) m]
      omega

theorem get?_some_of_lt : ∀ (l : List α) (i : Nat), i < l.length → ∃ a, l.get? i = some a
  | a :: _, 0, _ => ⟨a, rfl⟩
  | _ :: l, i+1, h => get?_some_of_lt l i (Nat.lt_of_succ_lt_succ h)

theorem lt_of_get?_some : ∀ (l : List α) (i : Nat) (a : α), l.get? i = some a → i < l.length
  | _ :: _, 0, _, _ => Nat.succ_pos _
  | _ :: l, i+1, a, h => Nat.succ_lt_succ (lt_of_get?_some l i a h)

theorem firstNonBlank_lt : ∀ (doc : List LineInfo) (i₀ : Nat),
    firstNonBlank doc = some i₀ → i₀ < doc.length := by
  intro doc
  induction doc with
  | nil => intro i₀ h; simp [firstNonBlank] at h
  | cons li rest ih =>
      intro i₀ h
      rw [firstNonBlank] at h
      by_cases hb : lineBlank li
      · rw [if_pos hb] at h
        match hr : firstNonBlank rest with
        | none => rw [hr] at h; simp at h
        | some j =>
            rw [hr] at h; simp at h
            have := ih j hr
            simp [List.length_cons]
            omega
      · rw [if_neg hb] at h
        simp at h
        simp [List.length_cons]
        omega

theorem firstNonBlank_nonblank : ∀ (doc : List LineInfo) (i₀ : Nat),
    firstNonBlank doc = some i₀ →
    ∃ li, doc.get? i₀ = some li ∧ lineBlank li = false := by
  intro doc
  induction doc with
  | nil => intro i₀ h; simp [firstNonBlank] at h
  | cons li rest ih =>
      intro i₀ h
      rw [firstNonBlank] at h
      by_cases hb : lineBlank li
      · rw [if_pos hb] at h
        match hr : firstNonBlank rest with
        | none => rw [hr] at h; simp at h
        | some j =>
            rw [hr] at h; simp at h
            obtain ⟨li', h1, h2⟩ := ih j hr
            exact ⟨li', by rw [← h]; exact h1, h2⟩
      · rw [if_neg hb] at h
        simp at h
        exact ⟨li, by rw [← h]; rfl, by simpa using hb⟩

theorem firstNonBlank_blank_lt : ∀ (doc : List LineInfo) (i₀ : Nat),
    firstNonBlank doc = some i₀ →
    ∀ j li, j < i₀ → doc.get? j = some li → lineBlank li = true := by
  intro doc
  induction doc with
  | nil => intro i₀ h; simp [firstNonBlank] at h
  | cons li rest ih =>
      intro i₀ h j lj hj hget
      rw [firstNonBlank] at h
      by_cases hb : lineBlank li
      · rw [if_pos hb] at h
        match hr : firstNonBlank rest with
        | none => rw [hr] at h; simp at h
        | some k =>
            rw [hr] at h; simp at h
            match j with
            | 0 =>
                have : lj = li := by simpa using hget.symm
                rw [this]; exact hb
            | j'+1 =>
                exact ih k hr j' lj (by omega) (by simpa using hget)
      · rw [if_neg hb] at h
        simp at h
        omega

theorem firstNonBlank_none_all_blank : ∀ (doc : List LineInfo),
    firstNonBlank doc = none →
    ∀ j li, doc.get? j = some li → lineBlank li = true := by
  intro doc
  induction doc with
  | nil => intro _ j li h; simp [List.get?] at h
  | cons li rest ih =>
      intro h j lj hget
      rw [firstNonBlank] at h
      by_cases hb : lineBlank li
      · rw [if_pos hb] at h
        match hr : firstNonBlank rest with
        | none =>
            match j with
            | 0 =>
                have : lj = li := by simpa using hget.symm
                rw [this]; exact hb
            | j'+1 => exact ih hr j' lj (by simpa using hget)
        | some k => rw [hr] at h; simp at h
      · rw [if_neg hb] at h
        simp at h

theorem firstNonBlank_le : ∀ (doc : List LineInfo) (i : Nat) (li : LineInfo),
    doc.get? i = some li → lineBlank li = false →
    ∃ i₀, firstNonBlank doc = some i₀ ∧ i₀ ≤ i := by
  intro doc
  induction doc with
  | nil => intro i li h; simp [List.get?] at h
  | cons lj rest ih =>
      intro i li hget hnb
      rw [firstNonBlank]
      by_cases hb : lineBlank lj
      · rw [if_pos hb]
        match i with
        | 0 =>
            have : li = lj := by simpa using hget.symm
            rw [this] at hnb; rw [hnb] at hb; simp at hb
        | i'+1 =>
            obtain ⟨i₀, h1, h2⟩ := ih i' li (by simpa using hget) hnb
            exact ⟨i₀ + 1, by rw [h1]; rfl, by omega⟩
      · rw [if_neg hb]
        exact ⟨0, rfl, Nat.zero_le _⟩

theorem linesLoop_false (doc : List LineInfo) :
    ∀ (fuel i : Nat), i + fuel = doc.length →
    linesLoop doc fuel i false =
      (lineSpan i fuel).map (fun j => (isSectionLine doc j, j)) := by
  intro fuel
  induction fuel with
  | zero => intro i h; simp [linesLoop, lineSpan]
  | succ n ih =>
      intro i h
      obtain ⟨li, hli⟩ := get?_some_of_lt doc i (by omega)
      rw [linesLoop, hli]
      simp only [Bool.false_and, if_neg (by simp : ¬(false && lineBlank li = true))]
      rw [lineSpan, ih (i+1) (by omega)]
      simp

theorem linesLoop_true (doc : List LineInfo) (i₀ : Nat) (h : firstNonBlank doc = some i₀) :
    ∀ (fuel i : Nat), i + fuel = doc.length → i ≤ i₀ →
    linesLoop doc fuel i true =
      (lineSpan i₀ (doc.length - i₀)).map (fun j => (isSectionLine doc j, j)) := by
  intro fuel
  induction fuel with
  | zero =>
      intro i h1 h2
      exfalso
      have := firstNonBlank_lt doc i₀ h
      omega
  | succ n ih =>
      intro i h1 h2
      obtain ⟨li, hli⟩ := get?_some_of_lt doc i (by omega)
      by_cases hcase : i = i₀
      · subst hcase
        obtain ⟨li', hli', hnb⟩ := firstNonBlank_nonblank doc i h
        rw [hli] at hli'
        injection hli' with e
        subst e
        rw [linesLoop, hli]
        simp only [hnb, Bool.and_false, Bool.false_eq_true, if_false]
        rw [linesLoop_false doc n (i+1) (by omega)]
        have hlen : doc.length - i = n + 1 := by omega
        rw [hlen, lineSpan]
        simp
      · have hlt : i < i₀ := by omega
        have hb := firstNonBlank_blank_lt doc i₀ h i li hlt hli
        rw [linesLoop, hli]
        simp only [hb, Bool.and_true, if_true]
        exact ih (i+1) (by omega) (by omega)

theorem eachLineState_char (doc : List LineInfo) (i₀ : Nat)
    (h : firstNonBlank doc = some i₀) :
    eachLineState doc =
      (lineSpan i₀ (doc.length - i₀)).map (fun j => (isSectionLine doc j, j)) :=
  linesLoop_true doc i₀ h doc.length 0 (by omega) (Nat.zero_le _)

theorem linesLoop_all_blank (doc : List LineInfo) (h : firstNonBlank doc = none) :
    ∀ (fuel i : Nat), linesLoop doc fuel i true = [] := by
  intro fuel
  induction fuel with
  | zero => intro i; simp [linesLoop]
  | succ n ih =>
      intro i
      rw [linesLoop]
      match hli : doc.get? i with
      | none => rfl
      | some li =>
          have hb := firstNonBlank_none_all_blank doc h i li hli
          simp only [hb, Bool.and_true, if_true]
          exact ih (i+1)

theorem eachLineState_all_blank (doc : List LineInfo) (h : firstNonBlank doc = none) :
    eachLineState doc = [] :=
  linesLoop_all_blank doc h doc.length 0

/-! Invariants of the built section list. -/

/-- Every consecutive pair of sections is adjacent: `end + 1` of one is the
`start` of the next. -/
def Contiguous : List Section → Prop
  | [] => True
  | [_] => True
  | a :: b :: rest => a.«end» + 1 = b.start ∧ Contiguous (b :: rest)

/-- Every section satisfies `start <= end`. -/
def AllLe (secs : List Section) : Prop := ∀ s ∈ secs, s.start ≤ s.«end»

/-- The `end` of the last section (0 for the empty list). -/
def lastEnd : List Section → Nat
  | [] => 0
  | [s] => s.«end»
  | _ :: rest => lastEnd rest

/-- The list of section `start` fields, in order. -/
def starts (secs : List Section) : List Nat := secs.map (fun s => s.start)

/-- The lines `start, …, end` of one section. -/
def sectionSpan (s : Section) : List Nat := lineSpan s.start (s.«end» + 1 - s.start)

/-- The concatenation of all section line ranges, in order. -/
def coveredLines : List Section → List Nat
  | [] => []
  | s :: rest => sectionSpan s ++ coveredLines rest

theorem lastEnd_cons (a : Section) (l : List Section) (h : l ≠ []) :
    lastEnd (a :: l) = lastEnd l := by
  match l with
  | [] => exact absurd rfl h
  | b :: l' => rfl

theorem lastEnd_append_one : ∀ (secs : List Section) (t : Section),
    lastEnd (secs ++ [t]) = t.«end»
  | [], t => rfl
  | [s], t => rfl
  | a :: b :: rest, t => by
      have h1 : (a :: b :: rest) ++ [t] = a :: ((b :: rest) ++ [t]) := rfl
      rw [h1, lastEnd_cons a ((b :: rest) ++ [t]) (by simp)]
      exact lastEnd_append_one (b :: rest) t

theorem contiguous_append_one : ∀ (secs : List Section) (t : Section),
    Contiguous secs → lastEnd secs + 1 = t.start → secs ≠ [] →
    Contiguous (secs ++ [t])
  | [], _, _, _, hne => absurd rfl hne
  | [s], t, _, hl, _ => by
      rw [lastEnd] at hl
      show Contiguous [s, t]
      rw [Contiguous]
      exact ⟨hl, trivial⟩
  | a :: b :: rest, t, hc, hl, _ => by
      rw [Contiguous] at hc
      have hl' : lastEnd (b :: rest) + 1 = t.start := by
        rwa [lastEnd_cons a (b :: rest) (by simp)] at hl
      have htail := contiguous_append_one (b :: rest) t hc.2 hl' (by simp)
      have h1 : (a :: b :: rest) ++ [t] = a :: b :: (rest ++ [t]) := rfl
      rw [h1, Contiguous]
      exact ⟨hc.1, htail⟩

theorem coveredLines_append : ∀ (l₁ l₂ : List Section),
    coveredLines (l₁ ++ l₂) = coveredLines l₁ ++ coveredLines l₂
  | [], l₂ => by simp [coveredLines]
  | s :: rest, l₂ => by
      show sectionSpan s ++ coveredLines (rest ++ l₂) =
        (sectionSpan s ++ coveredLines rest) ++ coveredLines l₂
      rw [coveredLines_append rest l₂, List.append_assoc]

theorem sectionSpan_single (k : Nat) :
    sectionSpan ⟨k, k, none⟩ = [k] := by
  simp [sectionSpan, lineSpan]

theorem starts_append_one (secs : List Section) (t : Section) :
    starts (secs ++ [t]) = starts secs ++ [t.start] := by
  simp [starts]

theorem updateLastEnd_cons_cons (a b : Section) (l : List Section) (e : Nat) :
    updateLastEnd (a :: b :: l) e = a :: updateLastEnd (b :: l) e := rfl

theorem updateLastEnd_head_start : ∀ (b : Section) (l : List Section) (e : Nat),
    ∃ b' l', updateLastEnd (b :: l) e = b' :: l' ∧ b'.start = b.start
  | b, [], e => ⟨{ b with «end» := e }, [], rfl, rfl⟩
  | b, c :: l', e => ⟨b, updateLastEnd (c :: l') e, rfl, rfl⟩

theorem updateLastEnd_ne_nil : ∀ (secs : List Section) (e : Nat),
    secs ≠ [] → updateLastEnd secs e ≠ []
  | [], _, hne => absurd rfl hne
  | [s], _, _ => by simp [updateLastEnd]
  | a :: b :: l, e, _ => by rw [updateLastEnd_cons_cons]; simp

theorem starts_updateLastEnd : ∀ (secs : List Section) (e : Nat),
    starts (updateLastEnd secs e) = starts secs
  | [], _ => rfl
  | [s], _ => rfl
  | a :: b :: l, e => by
      rw [updateLastEnd_cons_cons]
      show a.start :: starts (updateLastEnd (b :: l) e) = a.start :: starts (b :: l)
      rw [starts_updateLastEnd (b :: l) e]

theorem lastEnd_updateLastEnd : ∀ (secs : List Section) (e : Nat),
    secs ≠ [] → lastEnd (updateLastEnd secs e) = e
  | [], _, hne => absurd rfl hne
  | [s], e, _ => rfl
  | a :: b :: l, e, _ => by
      rw [updateLastEnd_cons_cons,
        lastEnd_cons a (updateLastEnd (b :: l) e) (updateLastEnd_ne_nil (b :: l) e (by simp))]
      exact lastEnd_updateLastEnd (b :: l) e (by simp)

theorem contiguous_updateLastEnd : ∀ (secs : List Section) (e : Nat),
    Contiguous secs → Contiguous (updateLastEnd secs e)
  | [], _, _ => trivial
  | [s], _, _ => by rw [updateLastEnd]; trivial
  | a :: b :: l, e, hc => by
      rw [Contiguous] at hc
      rw [updateLastEnd_cons_cons]
      obtain ⟨b', l', heq, hstart⟩ := updateLastEnd_head_start b l e
      rw [heq, Contiguous]
      constructor
      · rw [hstart]; exact hc.1
      · rw [← heq]; exact contiguous_updateLastEnd (b :: l) e hc.2

theorem allLe_updateLastEnd : ∀ (secs : List Section) (e : Nat),
    AllLe secs → lastEnd secs ≤ e → AllLe (updateLastEnd secs e)
  | [], _, _, _ => by intro s hs; simp [updateLastEnd] at hs
  | [t], e, hall, hle => by
      intro s hs
      rw [updateLastEnd] at hs
      rw [List.mem_singleton] at hs
      subst hs
      have h1 := hall t (by simp)
      rw [lastEnd] at hle
      show t.start ≤ e
      omega
  | a :: b :: l, e, hall, hle => by
      intro s hs
      rw [updateLastEnd_cons_cons] at hs
      rcases List.mem_cons.mp hs with h | h
      · rw [h]; exact hall a (by simp)
      · have hall' : AllLe (b :: l) := fun s hs => hall s (List.mem_cons_of_mem a hs)
        have hle' : lastEnd (b :: l) ≤ e := by
          rwa [lastEnd_cons a (b :: l) (by simp)] at hle
        exact allLe_updateLastEnd (b :: l) e hall' hle' s h

theorem coveredLines_updateLastEnd : ∀ (secs : List Section) (j : Nat),
    secs ≠ [] → AllLe secs → lastEnd secs = j →
    coveredLines (updateLastEnd secs (j+1)) = coveredLines secs ++ [j+1]
  | [], _, hne, _, _ => absurd rfl hne
  | [t], j, _, hall, hl => by
      rw [lastEnd] at hl
      have hs := hall t (by simp)
      rw [updateLastEnd]
      show sectionSpan { t with «end» := j+1 } ++ [] = (sectionSpan t ++ []) ++ [j+1]
      rw [sectionSpan, sectionSpan]
      show lineSpan t.start (j + 1 + 1 - t.start) ++ [] = (lineSpan t.start (t.«end» + 1 - t.start) ++ []) ++ [j+1]
      have h1 : j + 1 + 1 - t.start = (j + 1 - t.start) + 1 := by omega
      rw [h1, lineSpan_snoc]
      have h2 : t.start + (j + 1 - t.start) = j + 1 := by omega
      rw [h2, hl]
      have h3 : j + 1 - t.start = j - t.«end» + (t.«end» + 1 - t.start) := by omega
      simp [hl]
  | a :: b :: l, j, _, hall, hl => by
      rw [updateLastEnd_cons_cons]
      show sectionSpan a ++ coveredLines (updateLastEnd (b :: l) (j+1)) =
        (sectionSpan a ++ coveredLines (b :: l)) ++ [j+1]
      have hall' : AllLe (b :: l) := fun s hs => hall s (List.mem_cons_of_mem a hs)
      have hl' : lastEnd (b :: l) = j := by
        rwa [lastEnd_cons a (b :: l) (by simp)] at hl
      rw [coveredLines_updateLastEnd (b :: l) j (by simp) hall' hl']
      simp

theorem foldl_buildStep_none : ∀ (L : List (Bool × Nat)), L.foldl buildStep none = none
  | [] => rfl
  | x :: L => by
      rw [List.foldl_cons]
      exact foldl_buildStep_none L

theorem buildFold (doc : List LineInfo) :
    ∀ (len j : Nat) (secs : List Section),
    secs ≠ [] → Contiguous secs → AllLe secs → lastEnd secs = j →
    ∃ secs',
      ((lineSpan (j+1) len).map (fun k => (isSectionLine doc k, k))).foldl
          buildStep (some secs) = some secs' ∧
      secs' ≠ [] ∧ Contiguous secs' ∧ AllLe secs' ∧ lastEnd secs' = j + len ∧
      starts secs' =
        starts secs ++ ((lineSpan (j+1) len).filter (fun k => isSectionLine doc k)) ∧
      coveredLines secs' = coveredLines secs ++ lineSpan (j+1) len := by
  intro len
  induction len with
  | zero =>
      intro j secs hne hc hall hl
      exact ⟨secs, by simp [lineSpan], hne, hc, hall, by omega,
        by simp [lineSpan], by simp [lineSpan]⟩
  | succ n ih =>
      intro j secs hne hc hall hl
      rw [lineSpan, List.map_cons, List.foldl_cons]
      by_cases hsec : isSectionLine doc (j+1) = true
      · have hstep : buildStep (some secs) (isSectionLine doc (j+1), j+1) =
            some (secs ++ [⟨j+1, j+1, none⟩]) := by
          simp [buildStep, hsec]
        rw [hstep]
        have hne₁ : secs ++ [(⟨j+1, j+1, none⟩ : Section)] ≠ [] := by simp
        have hc₁ : Contiguous (secs ++ [⟨j+1, j+1, none⟩]) :=
          contiguous_append_one secs ⟨j+1, j+1, none⟩ hc (by rw [hl]) hne
        have hall₁ : AllLe (secs ++ [⟨j+1, j+1, none⟩]) := by
          intro s hs
          rcases List.mem_append.mp hs with h | h
          · exact hall s h
          · rw [List.mem_singleton] at h
            rw [h]
        have hl₁ : lastEnd (secs ++ [⟨j+1, j+1, none⟩]) = j + 1 :=
          lastEnd_append_one secs ⟨j+1, j+1, none⟩
        obtain ⟨secs', hfold, hne', hc', hall', hl', hst', hcov'⟩ :=
          ih (j+1) (secs ++ [⟨j+1, j+1, none⟩]) hne₁ hc₁ hall₁ hl₁
        refine ⟨secs', hfold, hne', hc', hall', by omega, ?_, ?_⟩
        · rw [hst', starts_append_one, List.filter_cons_of_pos (by exact hsec)]
          simp
        · rw [hcov', coveredLines_append]
          show (coveredLines secs ++ (sectionSpan ⟨j+1, j+1, none⟩ ++ [])) ++
              lineSpan (j+1+1) n = coveredLines secs ++ (j+1) :: lineSpan (j+2) n
          rw [sectionSpan_single]
          simp
      · have hsec' : isSectionLine doc (j+1) = false := by
          simpa using hsec
        obtain ⟨a, rest, hcons⟩ := List.exists_cons_of_ne_nil hne
        have hstep : buildStep (some secs) (isSectionLine doc (j+1), j+1) =
            some (updateLastEnd secs (j+1)) := by
          rw [hcons]
          simp [buildStep, hsec']
        rw [hstep]
        have hneU : updateLastEnd secs (j+1) ≠ [] := updateLastEnd_ne_nil secs (j+1) hne
        have hcU : Contiguous (updateLastEnd secs (j+1)) := contiguous_updateLastEnd secs (j+1) hc
        have hallU : AllLe (updateLastEnd secs (j+1)) :=
          allLe_updateLastEnd secs (j+1) hall (by omega)
        have hlU : lastEnd (updateLastEnd secs (j+1)) = j + 1 :=
          lastEnd_updateLastEnd secs (j+1) hne
        obtain ⟨secs', hfold, hne', hc', hall', hl', hst', hcov'⟩ :=
          ih (j+1) (updateLastEnd secs (j+1)) hneU hcU hallU hlU
        refine ⟨secs', hfold, hne', hc', hall', by omega, ?_, ?_⟩
        · rw [hst', starts_updateLastEnd, List.filter_cons_of_neg (by simp [hsec'])]
        · rw [hcov', coveredLines_updateLastEnd secs j hne hall hl]
          simp

theorem makeSectionList_built (doc : List LineInfo) (i₀ : Nat)
    (h : firstNonBlank doc = some i₀)
    (hok : (i₀ == 0 || isSectionLine doc i₀) = true) :
    ∃ secs, makeSectionList doc = some secs ∧ secs ≠ [] ∧ Contiguous secs ∧
      AllLe secs ∧ lastEnd secs = doc.length - 1 ∧
      starts secs =
        i₀ :: ((lineSpan (i₀+1) (doc.length - (i₀+1))).filter
          (fun k => isSectionLine doc k)) ∧
      coveredLines secs = lineSpan i₀ (doc.length - i₀) := by
  have hlt := firstNonBlank_lt doc i₀ h
  rw [makeSectionList, eachLineState_char doc i₀ h]
  have hspan : doc.length - i₀ = (doc.length - (i₀+1)) + 1 := by omega
  rw [hspan, lineSpan, List.map_cons, List.foldl_cons]
  have hstep : buildStep (some []) (isSectionLine doc i₀, i₀) =
      some [⟨i₀, i₀, none⟩] := by
    simp [buildStep, hok]
  rw [hstep]
  have hall₀ : AllLe [(⟨i₀, i₀, none⟩ : Section)] := by
    intro s hs
    rw [List.mem_singleton] at hs
    rw [hs]
  obtain ⟨secs, hfold, hne, hc, hall, hl, hst, hcov⟩ :=
    buildFold doc (doc.length - (i₀+1)) i₀ [⟨i₀, i₀, none⟩] (by simp)
      (by rw [Contiguous]; trivial) hall₀ rfl
  refine ⟨secs, hfold, hne, hc, hall, by omega, ?_, ?_⟩
  · rw [hst]
    rfl
  · rw [hcov]
    show (sectionSpan ⟨i₀, i₀, none⟩ ++ []) ++ lineSpan (i₀+1) (doc.length - (i₀+1)) =
      i₀ :: lineSpan (i₀+1) (doc.length - (i₀+1))
    rw [sectionSpan_single]
    simp

theorem makeSectionList_throws (doc : List LineInfo) (i₀ : Nat)
    (h : firstNonBlank doc = some i₀)
    (hbad : (i₀ == 0 || isSectionLine doc i₀) = false) :
    makeSectionList doc = none := by
  have hlt := firstNonBlank_lt doc i₀ h
  rw [makeSectionList, eachLineState_char doc i₀ h]
  have hspan : doc.length - i₀ = (doc.length - (i₀+1)) + 1 := by omega
  rw [hspan, lineSpan, List.map_cons, List.foldl_cons]
  have hstep : buildStep (some []) (isSectionLine doc i₀, i₀) = none := by
    simp only [Bool.or_eq_false_iff] at hbad
    simp [buildStep, hbad.1, hbad.2]
  rw [hstep]
  exact foldl_buildStep_none _

theorem makeSectionList_all_blank (doc : List LineInfo)
    (h : firstNonBlank doc = none) : makeSectionList doc = some [] := by
  rw [makeSectionList, eachLineState_all_blank doc h]
  rfl

theorem makeSectionList_inv (doc : List LineInfo) (l : List Section)
    (hl : makeSectionList doc = some l) (hne : l ≠ []) :
    ∃ i₀, firstNonBlank doc = some i₀ ∧ Contiguous l ∧ AllLe l ∧
      lastEnd l = doc.length - 1 ∧
      starts l =
        i₀ :: ((lineSpan (i₀+1) (doc.length - (i₀+1))).filter
          (fun k => isSectionLine doc k)) ∧
      coveredLines l = lineSpan i₀ (doc.length - i₀) := by
  match hfb : firstNonBlank doc with
  | none =>
      rw [makeSectionList_all_blank doc hfb] at hl
      injection hl with e
      exact absurd e.symm hne
  | some i₀ =>
      match hok : (i₀ == 0 || isSectionLine doc i₀) with
      | false =>
          rw [makeSectionList_throws doc i₀ hfb hok] at hl
          cases hl
      | true =>
          obtain ⟨secs, h1, h2, h3, h4, h5, h6, h7⟩ := makeSectionList_built doc i₀ hfb hok
          rw [h1] at hl
          injection hl with e
          subst e
          exact ⟨i₀, rfl, h3, h4, h5, h6, h7⟩

theorem pairwise_end_start : ∀ (secs : List Section),
    Contiguous secs → AllLe secs → secs.Pairwise (fun a b => a.«end» < b.start)
  | [], _, _ => List.Pairwise.nil
  | [s], _, _ => by simp
  | a :: b :: l, hc, hall => by
      rw [Contiguous] at hc
      have h0 := hc.1
      have hall' : AllLe (b :: l) := fun s hs => hall s (List.mem_cons_of_mem a hs)
      have htail := pairwise_end_start (b :: l) hc.2 hall'
      rw [List.pairwise_cons]
      refine ⟨?_, htail⟩
      intro c hcm
      rcases List.mem_cons.mp hcm with h | h
      · rw [h]
        omega
      · have h1 : b.«end» < c.start := (List.pairwise_cons.mp htail).1 c h
        have h2 : b.start ≤ b.«end» := hall' b (by simp)
        omega

theorem pairwise_start_lt (secs : List Section) (hc : Contiguous secs)
    (hall : AllLe secs) : secs.Pairwise (fun a b => a.start < b.start) := by
  have hp := pairwise_end_start secs hc hall
  refine List.Pairwise.imp_of_mem ?_ hp
  intro a b ha hb hab
  have := hall a ha
  omega

theorem scanFind_mem (line : Nat) : ∀ (l : List Section),
    l.Pairwise (fun a b => a.«end» < b.start) →
    ∀ s ∈ l, s.start ≤ line → line ≤ s.«end» → scanFind l line = some s
  | [], _, s, hs, _, _ => absurd hs (by simp)
  | t :: rest, hp, s, hs, h1, h2 => by
      rw [scanFind]
      by_cases hcase : line ≤ t.«end»
      · rw [if_pos hcase]
        rcases List.mem_cons.mp hs with h | h
        · rw [h]
        · exfalso
          have h3 := (List.pairwise_cons.mp hp).1 s h
          omega
      · rw [if_neg hcase]
        rcases List.mem_cons.mp hs with h | h
        · exact absurd (h ▸ h2) hcase
        · exact scanFind_mem line rest (List.pairwise_cons.mp hp).2 s h h1 h2

theorem scanFind_none (line : Nat) : ∀ (l : List Section),
    (∀ t ∈ l, t.«end» < line) → scanFind l line = none
  | [], _ => rfl
  | t :: rest, h => by
      rw [scanFind, if_neg (by have := h t (by simp); omega)]
      exact scanFind_none line rest (fun u hu => h u (List.mem_cons_of_mem t hu))

theorem end_le_lastEnd : ∀ (l : List Section), Contiguous l → AllLe l →
    ∀ t ∈ l, t.«end» ≤ lastEnd l
  | [], _, _, t, ht => absurd ht (by simp)
  | [s], _, _, t, ht => by
      rw [List.mem_singleton] at ht
      rw [ht, lastEnd]
  | a :: b :: rest, hc, hall, t, ht => by
      rw [Contiguous] at hc
      have hall' : AllLe (b :: rest) := fun s hs => hall s (List.mem_cons_of_mem a hs)
      have hlast : lastEnd (a :: b :: rest) = lastEnd (b :: rest) :=
        lastEnd_cons a (b :: rest) (by simp)
      rcases List.mem_cons.mp ht with h | h
      · have hb := end_le_lastEnd (b :: rest) hc.2 hall' b (by simp)
        have h2 : b.start ≤ b.«end» := hall' b (by simp)
        have h0 := hc.1
        rw [h, hlast]
        omega
      · rw [hlast]
        exact end_le_lastEnd (b :: rest) hc.2 hall' t h

theorem getLast?_lastEnd : ∀ (l : List Section) (s : Section),
    l.getLast? = some s → lastEnd l = s.«end»
  | [], s, h => by simp at h
  | [t], s, h => by
      have e : t = s := by simpa using h
      rw [lastEnd, e]
  | a :: b :: rest, s, h => by
      have h' : (b :: rest).getLast? = some s := by
        rwa [List.getLast?_cons_cons] at h
      rw [lastEnd_cons a (b :: rest) (by simp)]
      exact getLast?_lastEnd (b :: rest) s h'

/-- Claim C3 (amended): for every document with at least one non-blank line on
which `makeSectionList` completes (returns a list), the produced sections
satisfy `start ≤ end`, consecutive sections are contiguous (`end + 1` of each
is the `start` of its successor), the list is strictly ordered by `start`, and
the section ranges, concatenated in order, are exactly the lines from the
first non-blank line through `lineCount - 1`. -/
theorem makeSectionList_invariants (doc : List LineInfo) (i₀ : Nat) (secs : List Section)
    (h1 : firstNonBlank doc = some i₀) (h2 : makeSectionList doc = some secs) :
    AllLe secs ∧ Contiguous secs ∧
    secs.Pairwise (fun a b => a.start < b.start) ∧
    coveredLines secs = lineSpan i₀ (doc.length - i₀) := by
  match hok : (i₀ == 0 || isSectionLine doc i₀) with
  | false =>
      rw [makeSectionList_throws doc i₀ h1 hok] at h2
      cases h2
  | true =>
      obtain ⟨secs', ha, hb, hc, hd, he, hf, hg⟩ := makeSectionList_built doc i₀ h1 hok
      rw [ha] at h2
      injection h2 with e
      subst e
      exact ⟨hd, hc, pairwise_start_lt _ hc hd, hg⟩

/-- Claim C3 witness: on the example document the amended invariants hold with
first non-blank line 1; in particular the covered lines are exactly 1–5. -/
theorem makeSectionList_invariants_witness :
    (firstNonBlank exampleDoc = some 1 ∧
      makeSectionList exampleDoc = some [⟨1, 3, none⟩, ⟨4, 5, none⟩]) ∧
    coveredLines [⟨1, 3, none⟩, ⟨4, 5, none⟩] = lineSpan 1 (exampleDoc.length - 1) :=
  ⟨⟨by decide, by decide⟩,
    (makeSectionList_invariants exampleDoc 1 [⟨1, 3, none⟩, ⟨4, 5, none⟩]
      (by decide) (by decide)).2.2.2⟩

/-- Claim C4: on a non-empty built section list, `sectionByLine` returns the
first section in scan order whose `end ≥ line`: the unique section with
`start ≤ line ≤ end` whenever some section contains the line, the head section
for lines at or below its `end`, and — for any line past the last section's
`end`, in particular any `line ≥ lineCount` — the last section, without
failing. -/
theorem sectionByLine_correct (doc : List LineInfo) (l : List Section) (line : Nat)
    (h : makeSectionList doc = some l) (hne : l ≠ []) :
    (∀ s ∈ l, s.start ≤ line → line ≤ s.«end» → sectionByLine l line = some s) ∧
    (∀ s, l.head? = some s → line ≤ s.«end» → sectionByLine l line = some s) ∧
    (∀ s, l.getLast? = some s → s.«end» < line → sectionByLine l line = some s) := by
  obtain ⟨i₀, hfb, hc, hall, hlast, hst, hcov⟩ := makeSectionList_inv doc l h hne
  have hp := pairwise_end_start l hc hall
  refine ⟨?_, ?_, ?_⟩
  · intro s hs h1 h2
    rw [sectionByLine, scanFind_mem line l hp s hs h1 h2]
  · intro s hhead hle
    cases l with
    | nil => exact absurd rfl hne
    | cons t rest =>
        have e : t = s := by simpa using hhead
        subst e
        rw [sectionByLine, scanFind, if_pos hle]
  · intro s hlastq hlt
    have hcontra : ∀ t ∈ l, t.«end» < line := by
      intro t ht
      have hx := end_le_lastEnd l hc hall t ht
      have hy := getLast?_lastEnd l s hlastq
      omega
    rw [sectionByLine, scanFind_none line l hcontra]
    exact hlastq

/-- Claim C4 witness: on the example document's built list, line 10 — beyond
the 6-line document — yields the last section `{4, 5}` rather than an
error. -/
theorem sectionByLine_correct_witness :
    (makeSectionList exampleDoc = some [⟨1, 3, none⟩, ⟨4, 5, none⟩] ∧
      ([⟨1, 3, none⟩, ⟨4, 5, none⟩] : List Section) ≠ []) ∧
    sectionByLine [⟨1, 3, none⟩, ⟨4, 5, none⟩] 10 = some ⟨4, 5, none⟩ :=
  ⟨⟨by decide, by decide⟩,
    (sectionByLine_correct exampleDoc [⟨1, 3, none⟩, ⟨4, 5, none⟩] 10
      (by decide) (by decide)).2.2 ⟨4, 5, none⟩ (by decide) (by decide)⟩

theorem section_start_iff (doc : List LineInfo) (l : List Section) (i₀ : Nat)
    (hfb : firstNonBlank doc = some i₀) (hl : makeSectionList doc = some l) :
    ∀ k, (∃ s ∈ l, s.start = k) ↔
      (k = i₀ ∨ (i₀ < k ∧ k < doc.length ∧ isSectionLine doc k = true)) := by
  match hok : (i₀ == 0 || isSectionLine doc i₀) with
  | false =>
      rw [makeSectionList_throws doc i₀ hfb hok] at hl
      cases hl
  | true =>
      obtain ⟨secs, ha, hne, hc, hall, hlast, hst, hcov⟩ :=
        makeSectionList_built doc i₀ hfb hok
      rw [ha] at hl
      injection hl with e
      subst e
      intro k
      have hlt0 := firstNonBlank_lt doc i₀ hfb
      have hin : k ∈ starts secs ↔
          (k = i₀ ∨ (i₀ < k ∧ k < doc.length ∧ isSectionLine doc k = true)) := by
        rw [hst, List.mem_cons, List.mem_filter, mem_lineSpan]
        constructor
        · rintro (h | ⟨⟨ha1, ha2⟩, hp⟩)
          · exact Or.inl h
          · exact Or.inr ⟨by omega, by omega, hp⟩
        · rintro (h | ⟨h1, h2, h3⟩)
          · exact Or.inl h
          · exact Or.inr ⟨⟨by omega, by omega⟩, h3⟩
      rw [← hin, starts, List.mem_map]

theorem setextMatch_ne_empty (s : String) (h : setextMatch s = true) : s ≠ "" := by
  intro e
  rw [e] at h
  have h0 : setextMatch "" = false := by decide
  simp [h0] at h

/-- Claim C5 (amended): a line at or after the first non-blank line whose
successor's text matches the code's underline pattern — optional leading
space characters (U+0020 only, not arbitrary whitespace), then one or more `=`
or one or more `-`, then optional trailing whitespace — is flagged as a
boundary, and whenever `makeSectionList` completes, a section starts exactly
at that line. -/
theorem setext_underline_boundary (doc : List LineInfo) (i i₀ : Nat) (nxt : LineInfo)
    (hfb : firstNonBlank doc = some i₀) (hle : i₀ ≤ i)
    (hnext : doc.get? (i+1) = some nxt) (hm : setextMatch nxt.text = true) :
    isSectionLine doc i = true ∧
    ∀ secs, makeSectionList doc = some secs → ∃ s ∈ secs, s.start = i := by
  have hlt : i < doc.length := by
    have := lt_of_get?_some doc (i+1) nxt hnext
    omega
  obtain ⟨li, hli⟩ := get?_some_of_lt doc i hlt
  have hne : nxt.text ≠ "" := setextMatch_ne_empty nxt.text hm
  have hsn : setextNext doc i = true := by
    simp only [setextNext, hnext]
    simp [hm, hne]
  have hsec : isSectionLine doc i = true := by
    simp only [isSectionLine, hli]
    by_cases hatx :
        ((li.text != "") && li.header && !li.quote && !li.list && !li.taskList) = true
    · rw [if_pos hatx]
    · rw [if_neg hatx]
      exact hsn
  refine ⟨hsec, ?_⟩
  intro secs hsecs
  rcases Nat.eq_or_lt_of_le hle with he | hlt2
  · exact ((section_start_iff doc secs i₀ hfb hsecs) i).mpr (Or.inl he.symm)
  · exact ((section_start_iff doc secs i₀ hfb hsecs) i).mpr (Or.inr ⟨hlt2, hlt, hsec⟩)

/-- Claim C5 witness: in `["Title", "==="]` the title line 0 is flagged as a
boundary because line 1 matches the underline pattern. -/
theorem setext_underline_boundary_witness :
    (firstNonBlank setextTitleDoc = some 0 ∧ 0 ≤ 0 ∧
      setextTitleDoc.get? 1 = some ⟨"===", false, false, false, false⟩ ∧
      setextMatch "===" = true) ∧
    isSectionLine setextTitleDoc 0 = true :=
  ⟨⟨by decide, by decide, by decide, by decide⟩,
    (setext_underline_boundary setextTitleDoc 0 0 ⟨"===", false, false, false, false⟩
      (by decide) (by decide) (by decide) (by decide)).1⟩

/-- Claim C6 (amended): for a content-bearing (non-blank) line that the oracle
marks as a heading line: outside blockquote/list/task-list context it is
classified as a boundary and, whenever `makeSectionList` completes, a section
starts at it; inside such a context it opens no section — unless the next
line is a setext underline (the `else if` branch overrides the context rule)
or the line is the document's first non-blank line, which always opens
section 0. -/
theorem atx_heading_context_rule (doc : List LineInfo) (i : Nat) (li : LineInfo)
    (hget : doc.get? i = some li) (hh : li.header = true) :
    ((li.quote || li.list || li.taskList) = true → setextNext doc i = false →
      ∀ secs, makeSectionList doc = some secs →
        ∀ s ∈ secs, s.start = i → firstNonBlank doc = some i) ∧
    (lineBlank li = false → li.quote = false → li.list = false → li.taskList = false →
      isSectionLine doc i = true ∧
      ∀ secs, makeSectionList doc = some secs → ∃ s ∈ secs, s.start = i) := by
  constructor
  · intro hctx hsn secs hsecs s hs hstart
    have hsec : isSectionLine doc i = false := by
      simp only [isSectionLine, hget]
      have hatx : ((li.text != "") && li.header && !li.quote && !li.list && !li.taskList)
          = false := by
        cases hqv : li.quote <;> cases hlv : li.list <;> cases htv : li.taskList <;>
          simp_all
      rw [if_neg (by simp [hatx])]
      exact hsn
    match hfb : firstNonBlank doc with
    | none =>
        rw [makeSectionList_all_blank doc hfb] at hsecs
        injection hsecs with e
        subst e
        simp at hs
    | some i₀ =>
        have hiff := ((section_start_iff doc secs i₀ hfb hsecs) i).mp ⟨s, hs, hstart⟩
        rcases hiff with h | ⟨h1, h2, h3⟩
        · rw [h]
        · rw [hsec] at h3
          cases h3
  · intro hnb hq hl2 ht
    have htext : li.text ≠ "" := by
      intro e
      have hbl : lineBlank li = true := by
        rw [lineBlank, e]
        decide
      simp [hbl] at hnb
    have hsec : isSectionLine doc i = true := by
      simp only [isSectionLine, hget]
      rw [if_pos (by simp [htext, hh, hq, hl2, ht])]
    refine ⟨hsec, ?_⟩
    intro secs hsecs
    obtain ⟨i₀, hfb, hle⟩ := firstNonBlank_le doc i li hget hnb
    have hlt : i < doc.length := lt_of_get?_some doc i li hget
    rcases Nat.eq_or_lt_of_le hle with he | hlt2
    · exact ((section_start_iff doc secs i₀ hfb hsecs) i).mpr (Or.inl he.symm)
    · exact ((section_start_iff doc secs i₀ hfb hsecs) i).mpr (Or.inr ⟨hlt2, hlt, hsec⟩)

/-- Claim C6 witness: the `# Title` line of the example document — a heading
outside any quote/list context — is classified as a boundary. -/
theorem atx_heading_context_rule_witness :
    (exampleDoc.get? 1 = some ⟨"# Title", true, false, false, false⟩ ∧
      (⟨"# Title", true, false, false, false⟩ : LineInfo).header = true) ∧
    isSectionLine exampleDoc 1 = true :=
  ⟨⟨by decide, by decide⟩,
    ((atx_heading_context_rule exampleDoc 1 ⟨"# Title", true, false, false, false⟩
      (by decide) (by decide)).2 (by decide) (by decide) (by decide) (by decide)).1⟩

/-! Preview grouping: equivalence with the worded algorithm. -/

theorem lastGroup_snoc : ∀ (done : List (List String)) (cur : List String),
    lastGroup (done ++ [cur]) = cur
  | [], cur => rfl
  | [g], cur => rfl
  | g :: h :: done, cur => by
      show lastGroup ((h :: done) ++ [cur]) = cur
      exact lastGroup_snoc (h :: done) cur

theorem pushLast_snoc : ∀ (done : List (List String)) (cur : List String) (el : String),
    pushLast (done ++ [cur]) el = done ++ [cur ++ [el]]
  | [], cur, el => rfl
  | [g], cur, el => rfl
  | g :: h :: done, cur, el => by
      show g :: pushLast ((h :: done) ++ [cur]) el = g :: ((h :: done) ++ [cur ++ [el]])
      rw [pushLast_snoc (h :: done) cur el]

theorem previewFold_eq (elems : List String) :
    ∀ (done : List (List String)) (cur : List String),
    List.foldl previewStep (done ++ [cur]) elems =
      (List.foldl (specStep isHeadingTagMatch) (done, cur) elems).1 ++
        [(List.foldl (specStep isHeadingTagMatch) (done, cur) elems).2] := by
  induction elems with
  | nil => intro done cur; simp
  | cons el elems ih =>
      intro done cur
      rw [List.foldl_cons, List.foldl_cons]
      by_cases hh : (isHeadingTagMatch el && !cur.isEmpty) = true
      · have h1 : previewStep (done ++ [cur]) el = (done ++ [cur]) ++ [[el]] := by
          rw [previewStep, lastGroup_snoc, if_pos hh, pushLast_snoc, List.nil_append]
        have h2 : specStep isHeadingTagMatch (done, cur) el = (done ++ [cur], [el]) := by
          show (if isHeadingTagMatch el && !cur.isEmpty then (done ++ [cur], [el])
            else (done, cur ++ [el])) = (done ++ [cur], [el])
          rw [if_pos hh]
        rw [h1, h2]
        exact ih (done ++ [cur]) [el]
      · have h1 : previewStep (done ++ [cur]) el = done ++ [cur ++ [el]] := by
          rw [previewStep, lastGroup_snoc, if_neg hh, pushLast_snoc]
        have h2 : specStep isHeadingTagMatch (done, cur) el = (done, cur ++ [el]) := by
          show (if isHeadingTagMatch el && !cur.isEmpty then (done ++ [cur], [el])
            else (done, cur ++ [el])) = (done, cur ++ [el])
          rw [if_neg hh]
        rw [h1, h2]
        exact ih done (cur ++ [el])

/-- Claim C7 (amended): the grouping starts with a single empty group; an
element whose tag name *contains* one of H1–H6 as a substring (the regex
`/H1|H2|H3|H4|H5|H6/` is unanchored) closes the current group and opens a new
one exactly when the current group is non-empty, otherwise it is appended in
place; every element whose tag name contains no such substring is appended to
the current group — i.e. the code's grouping coincides with the worded
algorithm run with the substring heading test — and `[H1, P, P, H2, P]` yields
exactly `[[H1, P, P], [H2, P]]`. -/
theorem preview_grouping_characterization :
    (∀ elems, getPreviewSections elems = specGroups isHeadingTagMatch elems) ∧
    getPreviewSections ["H1", "P", "P", "H2", "P"] = [["H1", "P", "P"], ["H2", "P"]] := by
  constructor
  · intro elems
    show List.foldl previewStep ([] ++ [[]]) elems = _
    rw [previewFold_eq elems [] []]
    rfl
  · decide

/-! The preview aligner. -/

theorem matchPS_map_start : ∀ (secs : List Section) (gs : List (List String)) (i : Nat),
    (matchPS secs gs i).map (fun s => s.start) = secs.map (fun s => s.start) ∧
    (matchPS secs gs i).map (fun s => s.«end») = secs.map (fun s => s.«end»)
  | secs, [], _ => by cases secs <;> exact ⟨rfl, rfl⟩
  | [], g :: gs, _ => ⟨rfl, rfl⟩
  | s :: rest, g :: gs, i => by
      have ih := matchPS_map_start rest gs (i+1)
      constructor
      · show (({ s with previewSectionEl := some (i, g) }) ::
            matchPS rest gs (i+1)).map (fun s => s.start) =
          (s :: rest).map (fun s => s.start)
        rw [List.map_cons, List.map_cons, ih.1]
      · show (({ s with previewSectionEl := some (i, g) }) ::
            matchPS rest gs (i+1)).map (fun s => s.«end») =
          (s :: rest).map (fun s => s.«end»)
        rw [List.map_cons, List.map_cons, ih.2]

/-- Claim C8: when the section list has never been built (`_sectionList` is
`null`), `sectionMatch` is a silent no-op: no grouping is computed, no
`previewElement` is assigned, and the manager state is returned unchanged. -/
theorem sectionMatch_noop_without_list (m : SectionManager) (p : List String)
    (h : m.sectionList = none) : sectionMatch m p = m := by
  rw [sectionMatch, h]

/-- Claim C8 witness: on a fresh manager and a one-element preview,
`sectionMatch` changes nothing. -/
theorem sectionMatch_noop_without_list_witness :
    (SectionManager.mk none).sectionList = none ∧
    sectionMatch ⟨none⟩ ["P"] = ⟨none⟩ :=
  ⟨rfl, sectionMatch_noop_without_list ⟨none⟩ ["P"] rfl⟩

/-- Claim C9: `sectionMatch` replaces the section list by the index-wise
matched one, and that list has the same `start` and `end` fields, section by
section; only `previewSectionEl` may differ. -/
theorem sectionMatch_preserves_ranges (m : SectionManager) (p : List String)
    (l : List Section) (h : m.sectionList = some l) :
    (sectionMatch m p).sectionList = some (matchPS l (getPreviewSections p) 0) ∧
    (matchPS l (getPreviewSections p) 0).map (fun s => s.start) =
      l.map (fun s => s.start) ∧
    (matchPS l (getPreviewSections p) 0).map (fun s => s.«end») =
      l.map (fun s => s.«end») := by
  refine ⟨?_, (matchPS_map_start l (getPreviewSections p) 0).1,
    (matchPS_map_start l (getPreviewSections p) 0).2⟩
  rw [sectionMatch, h]

/-- Claim C9 witness: on a one-section list with a one-heading preview, the
matched list keeps `start = 0` and `end = 1` and only gains the container. -/
theorem sectionMatch_preserves_ranges_witness :
    (SectionManager.mk (some [⟨0, 1, none⟩])).sectionList = some [⟨0, 1, none⟩] ∧
    ((sectionMatch ⟨some [⟨0, 1, none⟩]⟩ ["H1"]).sectionList =
        some (matchPS [⟨0, 1, none⟩] (getPreviewSections ["H1"]) 0) ∧
      (matchPS [⟨0, 1, none⟩] (getPreviewSections ["H1"]) 0).map (fun s => s.start) =
        [(⟨0, 1, none⟩ : Section)].map (fun s => s.start) ∧
      (matchPS [⟨0, 1, none⟩] (getPreviewSections ["H1"]) 0).map (fun s => s.«end») =
        [(⟨0, 1, none⟩ : Section)].map (fun s => s.«end»)) :=
  ⟨rfl, sectionMatch_preserves_ranges ⟨some [⟨0, 1, none⟩]⟩ ["H1"] [⟨0, 1, none⟩] rfl⟩

theorem pushLast_ne_nil : ∀ (gs : List (List String)) (el : String),
    gs ≠ [] → pushLast gs el ≠ []
  | [], _, h => absurd rfl h
  | [g], el, _ => by
      show [g ++ [el]] ≠ []
      simp
  | g :: h' :: gs, el, _ => by
      show g :: pushLast (h' :: gs) el ≠ []
      simp

theorem previewStep_ne_nil (sections : List (List String)) (el : String)
    (h : sections ≠ []) : previewStep sections el ≠ [] := by
  rw [previewStep]
  by_cases hc : (isHeadingTagMatch el && !(lastGroup sections).isEmpty) = true
  · rw [if_pos hc]
    exact pushLast_ne_nil _ el (by simp)
  · rw [if_neg hc]
    exact pushLast_ne_nil _ el h

theorem foldl_previewStep_ne_nil : ∀ (elems : List String) (sections : List (List String)),
    sections ≠ [] → List.foldl previewStep sections elems ≠ []
  | [], _, h => h
  | el :: elems, sections, h => by
      rw [List.foldl_cons]
      exact foldl_previewStep_ne_nil elems (previewStep sections el)
        (previewStep_ne_nil sections el h)

theorem getPreviewSections_ne_nil (elems : List String) : getPreviewSections elems ≠ [] :=
  foldl_previewStep_ne_nil elems [[]] (by simp)

/-- Claim C10: whenever `sectionMatch` runs with a non-empty section list, the
grouping returns at least one group — exactly one empty group for an empty
preview — so section 0 is always assigned a fresh container holding the first
group (possibly empty), regardless of any previous `previewSectionEl`
value. -/
theorem sectionMatch_assigns_first_section (m : SectionManager) (p : List String)
    (a : Section) (rest : List Section) (h : m.sectionList = some (a :: rest)) :
    getPreviewSections ([] : List String) = [[]] ∧
    getPreviewSections p ≠ [] ∧
    (sectionMatch m p).sectionList =
      some ({ a with previewSectionEl := some (0, (getPreviewSections p).headI) } ::
        matchPS rest (getPreviewSections p).tail 1) := by
  obtain ⟨g, gs, hg⟩ := List.exists_cons_of_ne_nil (getPreviewSections_ne_nil p)
  refine ⟨rfl, getPreviewSections_ne_nil p, ?_⟩
  rw [sectionMatch, h, hg]
  rfl

/-- Claim C10 witness: a one-section list with an empty preview still gets a
fresh (empty) container wired to section 0. -/
theorem sectionMatch_assigns_first_section_witness :
    (SectionManager.mk (some [⟨0, 0, none⟩])).sectionList = some (⟨0, 0, none⟩ :: []) ∧
    (getPreviewSections ([] : List String) = [[]] ∧
      getPreviewSections ([] : List String) ≠ [] ∧
      (sectionMatch ⟨some [⟨0, 0, none⟩]⟩ []).sectionList =
        some ({ (⟨0, 0, none⟩ : Section) with
            previewSectionEl := some (0, (getPreviewSections ([] : List String)).headI) } ::
          matchPS [] (getPreviewSections ([] : List String)).tail 1)) :=
  ⟨rfl, sectionMatch_assigns_first_section ⟨some [⟨0, 0, none⟩]⟩ [] ⟨0, 0, none⟩ [] rfl⟩
